import Mathlib

/-!
# Verification of the content-mutation and query-preprocessing engine

Shallow embedding of the algorithmic core of the `triliumnext-mcp` repository:

* `src/tools/queryPreprocessor.ts` — tokenizer, segment classifier and OR
  rewriter for search queries (`preprocessSearchQuery`);
* `src/tools/diff.ts` — search/replace application (`applySearchReplace`),
  unified-diff application (`applyUnifiedDiff`, delegating to the external
  `diff` library, modelled here as a function parameter), content-mode
  dispatch (`resolveContent`) and read-back verification
  (`verifySearchReplaceResults`).

JavaScript strings are modelled as Lean `String`s viewed as lists of
characters.  The JS regular-expression classes used by the tokenizer
(`\s`, `\S`, `.`) are modelled by executable character predicates.
-/

namespace TriliumMcp

/-! ## JS character classes

`isJsWhitespace` models the JS regex class `\s` (so `\S` is its negation);
`isJsLineTerminator` models the characters that JS `.` does not match
(no `s` flag). -/

/-- The JS `\s` class: space, tab, LF, VT, FF, CR, NBSP, and the Unicode
space separators, line/paragraph separators, narrow NBSP, MMSP, ideographic
space and BOM. -/
def isJsWhitespace (c : Char) : Bool :=
  c == ' ' || c == '\t' || c == '\n' || c == Char.ofNat 0x0b ||
  c == Char.ofNat 0x0c || c == '\r' || c == Char.ofNat 0xa0 ||
  c == Char.ofNat 0x1680 ||
  (decide (0x2000 ≤ c.toNat) && decide (c.toNat ≤ 0x200a)) ||
  c == Char.ofNat 0x2028 || c == Char.ofNat 0x2029 || c == Char.ofNat 0x202f ||
  c == Char.ofNat 0x205f || c == Char.ofNat 0x3000 || c == Char.ofNat 0xfeff

/-- JS line terminators: LF, CR, LINE SEPARATOR, PARAGRAPH SEPARATOR.
The regex `.` (without the `s` flag) matches every character except these. -/
def isJsLineTerminator (c : Char) : Bool :=
  c == '\n' || c == '\r' || c == Char.ofNat 0x2028 || c == Char.ofNat 0x2029

/-! ## Tokenizer (`tokenize` in queryPreprocessor.ts)

The source tokenizes with the global regex `/"(?:[^"\\]|\\.)*"|\S+/g`.
The quoted alternative `"(?:[^"\\]|\\.)*"` is deterministic: after the
opening quote, a plain character (`[^"\\]`) is consumed one at a time, a
backslash must be followed by a non-line-terminator character (`\\.`), and
the match ends at the first unescaped `"`.  Backtracking can never produce
a different successful match, so the scan below is an exact model. -/

/-- Scan the body of a quoted phrase after the opening `"`.  Returns the
consumed characters (including the closing quote) and the remaining input,
or `none` when the regex alternative `"(?:[^"\\]|\\.)*"` fails at this
position. -/
def scanQuoted : List Char → Option (List Char × List Char)
  | [] => none
  | '"' :: rest => some (['"'], rest)
  | '\\' :: c :: rest =>
    if isJsLineTerminator c then none
    else
      match scanQuoted rest with
      | some (body, rest2) => some ('\\' :: c :: body, rest2)
      | none => none
  | ['\\'] => none
  | c :: rest =>
    match scanQuoted rest with
    | some (body, rest2) => some (c :: body, rest2)
    | none => none

/-- The scan `scanQuoted` consumes a nonempty chunk of its input. -/
theorem scanQuoted_eq_append :
    ∀ l body rest, scanQuoted l = some (body, rest) → l = body ++ rest ∧ body ≠ [] := by
  intro l
  induction l using scanQuoted.induct with
  | case1 => intro b r h; simp [scanQuoted] at h
  | case2 rest => intro b r h; simp [scanQuoted] at h; simp [← h.1, ← h.2]
  | case3 c rest hlt => intro b r h; simp [scanQuoted, hlt] at h
  | case4 c rest hlt body rest2 hrec ih =>
    intro b r h
    simp [scanQuoted, hlt, hrec] at h
    obtain ⟨hb, hr⟩ := (ih body rest2 hrec)
    constructor
    · simp [← h.1, ← h.2, hb]
    · simp [← h.1]
  | case5 c rest hlt hrec => intro b r h; simp [scanQuoted, hlt, hrec] at h
  | case6 => intro b r h; simp [scanQuoted] at h
  | case7 c rest h1 h2 h3 body rest2 hrec ih =>
    intro b r h
    simp [scanQuoted, hrec] at h
    · obtain ⟨hb, hrr⟩ := ih body rest2 hrec
      constructor
      · simp [← h.1, ← h.2, hb]
      · simp [← h.1]
  | case8 c rest h1 h2 h3 hrec => intro b r h; simp [scanQuoted, hrec] at h

/-- One tokenization step needs at most `fuel` list cells; `fuel` strictly
exceeding the input length is always enough, since every emitted token or
skipped separator consumes at least one character. -/
def tokenizeFuel : Nat → List Char → List (List Char)
  | 0, _ => []
  | _ + 1, [] => []
  | fuel + 1, c :: rest =>
    if isJsWhitespace c then tokenizeFuel fuel rest
    else if c = '"' then
      match scanQuoted rest with
      | some (body, rest2) => ('"' :: body) :: tokenizeFuel fuel rest2
      | none =>
        ((c :: rest).takeWhile fun x => !isJsWhitespace x) ::
          tokenizeFuel fuel ((c :: rest).dropWhile fun x => !isJsWhitespace x)
    else
      ((c :: rest).takeWhile fun x => !isJsWhitespace x) ::
        tokenizeFuel fuel ((c :: rest).dropWhile fun x => !isJsWhitespace x)

/-- Embedding of `tokenize` from queryPreprocessor.ts: split a query into quoted phrases
and maximal runs of non-whitespace characters. -/
def tokenize (query : String) : List String :=
  (tokenizeFuel (query.toList.length + 1) query.toList).map fun l => String.mk l

/-- Embedding of `isOrOperator` from queryPreprocessor.ts: `token.toLowerCase() === 'or'`
(simple per-character lowercasing). -/
def isOrOperator (token : String) : Bool :=
  String.mk (token.toList.map Char.toLower) == "or"

/-- List-level `startsWith`: `startsChars p l` holds when `p` is an initial
run of `l`. -/
def startsChars : List Char → List Char → Bool
  | [], _ => true
  | _ :: _, [] => false
  | a :: as, b :: bs => a == b && startsChars as bs

/-- Model of `String.prototype.startsWith`. -/
def strStartsWith (token pat : String) : Bool :=
  startsChars pat.toList token.toList

/-- The per-token test of `isBareFulltextSegment`: a token is a plain
fulltext word when it has no `#`/`~` sigil, no `note.` or `not(` head, none
of the characters `=`, `!`, `<`, `>`, and no parenthesis head. -/
def isPlainFulltextToken (token : String) : Bool :=
  !(strStartsWith token "#" || strStartsWith token "~" ||
    strStartsWith token "note." || strStartsWith token "not(" ||
    (token.toList.any fun c => c == '=' || c == '!' || c == '<' || c == '>') ||
    strStartsWith token "(" || strStartsWith token ")")

/-- Embedding of `isBareFulltextSegment` from queryPreprocessor.ts: every
token must be a plain fulltext word. -/
def isBareFulltextSegment (tokens : List String) : Bool :=
  tokens.all isPlainFulltextToken

/-- Model of `Array.prototype.join(sep)`. -/
def joinSep (sep : String) : List String → String
  | [] => ""
  | [x] => x
  | x :: xs => x ++ sep ++ joinSep sep xs

/-- Embedding of `wrapFulltextSegment` from queryPreprocessor.ts. -/
def wrapFulltextSegment (tokens : List String) : String :=
  match tokens with
  | [t] => "note.content *=* " ++ t
  | _ =>
    "(" ++ joinSep " AND " (tokens.map fun t => "note.content *=* " ++ t) ++ ")"

/-- Generic split of a list into maximal runs separated by elements
satisfying `p`: the accumulator `current` holds the run being built, runs
are emitted in order and empty runs are dropped, exactly as the
segment-collecting loop of `preprocessSearchQuery` does. -/
def splitRuns {α : Type} (p : α → Bool) (current : List α) : List α → List (List α)
  | [] => if current.isEmpty then [] else [current]
  | t :: rest =>
    if p t then
      if current.isEmpty then splitRuns p [] rest
      else current :: splitRuns p [] rest
    else splitRuns p (current ++ [t]) rest

/-- Embedding of `preprocessSearchQuery` from queryPreprocessor.ts. -/
def preprocessSearchQuery (query : String) : String :=
  let tokens := tokenize query
  if tokens.length = 0 then query
  else
    let segments := splitRuns isOrOperator [] tokens
    if segments.length ≤ 1 then query
    else
      let hasBareFulltext := segments.any fun seg => isBareFulltextSegment seg
      if !hasBareFulltext then query
      else
        joinSep " OR " (segments.map fun seg =>
          if isBareFulltextSegment seg then wrapFulltextSegment seg
          else joinSep " " seg)

/-! ## Diff module (`src/tools/diff.ts`) -/

/-- Embedding of `searchReplaceBlockSchema`: one search/replace edit. -/
structure SearchReplaceBlock where
  old_string : String
  new_string : String
deriving DecidableEq, Repr

/-- Embedding of `DiffApplicationError`: the single error kind of the diff module,
carrying a human-readable message. -/
structure DiffApplicationError where
  message : String
deriving DecidableEq, Repr

/-- List-level substring occurrence: the positions `i` at which `needle`
starts in `hay`.  Mirrors the index set scanned by `String.prototype.indexOf`. -/
def occList (hay needle : List Char) : List Nat :=
  (List.range (hay.length + 1)).filter fun i => startsChars needle (hay.drop i)

/-- Model of `hay.indexOf(needle, start)` for nonempty `needle`: the first
occurrence position that is `≥ start`, or `none` (JS `-1`). -/
def strIndexOfFrom (hay needle : String) (start : Nat) : Option Nat :=
  (occList hay.toList needle.toList).find? fun i => decide (start ≤ i)

/-- Number of occurrence positions of `needle` in `hay`. -/
def occurrencesOf (hay needle : String) : Nat :=
  (occList hay.toList needle.toList).length

/-- Model of `s.includes(sub)`. -/
def containsStr (hay sub : String) : Bool :=
  !(occList hay.toList sub.toList).isEmpty

/-- The inline truncation used in the diff module's error messages:
`s.length > limit ? s.slice(0, limit) + '...' : s`. -/
def truncateTo (limit : Nat) (s : String) : String :=
  if limit < s.length then String.mk (s.toList.take limit) ++ "..." else s

/-- The `NotFound` message of `applySearchReplace`. -/
def notFoundMsg (old : String) : String :=
  "Search/replace failed: could not find the search string in content. Search string: \"" ++
    truncateTo 100 old ++ "\""

/-- The `Ambiguous` message of `applySearchReplace`. -/
def ambiguousMsg (old : String) : String :=
  "Search/replace failed: the search string is ambiguous (appears multiple times in content). Search string: \"" ++
    truncateTo 100 old ++ "\""

/-- The `PatchFailed` message of `applyUnifiedDiff`. -/
def patchFailedMsg : String :=
  "Unified diff failed: the patch could not be applied to the current content. The content may have changed since the patch was created. Fetch the current content and retry with updated diffs."

/-- The `NoModeSpecified` message of `resolveContent`. -/
def noModeMsg : String :=
  "No content mode specified: provide one of \"content\", \"changes\", or \"patch\"."

/-- One iteration of the `applySearchReplace` loop. -/
def applySearchReplaceStep (result : String) (change : SearchReplaceBlock) :
    Except DiffApplicationError String :=
  if change.old_string = "" then
    Except.ok (change.new_string ++ result)
  else
    match strIndexOfFrom result change.old_string 0 with
    | none => Except.error ⟨notFoundMsg change.old_string⟩
    | some firstIndex =>
      if (strIndexOfFrom result change.old_string (firstIndex + 1)).isSome then
        Except.error ⟨ambiguousMsg change.old_string⟩
      else
        Except.ok (String.mk (result.toList.take firstIndex ++
          change.new_string.toList ++
          result.toList.drop (firstIndex + change.old_string.length)))

/-- Embedding of `applySearchReplace` from diff.ts: fold the edits over the running
content, throwing (modelled as `Except.error`) on a missing or ambiguous
search string. -/
def applySearchReplace (content : String) (changes : List SearchReplaceBlock) :
    Except DiffApplicationError String :=
  changes.foldlM applySearchReplaceStep content

/-- Embedding of `applyUnifiedDiff` from diff.ts.  The external `diff` library's
`applyPatch` (returning `false` on failure) is modelled as an explicit
function parameter returning `Option String`. -/
def applyUnifiedDiff (applyPatch : String → String → Option String)
    (content patch : String) : Except DiffApplicationError String :=
  match applyPatch content patch with
  | none => Except.error ⟨patchFailedMsg⟩
  | some result => Except.ok result

/-- The duck-typed request shape of `update_note_content`: any subset of the
three content modes may be populated. -/
structure ContentInput where
  content : Option String
  changes : Option (List SearchReplaceBlock)
  patch : Option String

/-- Embedding of `resolveContent` from diff.ts: dispatch on the first populated field
(`content`, then `changes`, then `patch`), then apply the optional
conversion function to the resolved content. -/
def resolveContent (applyPatch : String → String → Option String)
    (existingContent : String) (input : ContentInput)
    (convertFn : Option (String → String)) : Except DiffApplicationError String :=
  let resolved : Except DiffApplicationError String :=
    match input.content with
    | some c => Except.ok c
    | none =>
      match input.changes with
      | some chs => applySearchReplace existingContent chs
      | none =>
        match input.patch with
        | some p => applyUnifiedDiff applyPatch existingContent p
        | none => Except.error ⟨noModeMsg⟩
  match resolved with
  | Except.ok r =>
    Except.ok (match convertFn with
      | some f => f r
      | none => r)
  | Except.error e => Except.error e

/-- The truncated replacements of the edits whose (non-empty) `new_string`
is missing from the persisted content. -/
def missingReplacements (persistedContent : String)
    (changes : List SearchReplaceBlock) : List String :=
  (changes.filter fun b =>
    !decide (b.new_string = "") && !containsStr persistedContent b.new_string).map
    fun b => truncateTo 200 b.new_string

/-- The `ReadbackMismatch` message, listing the missing replacements. -/
def readbackMismatchMsg (missing : List String) : String :=
  "Search/replace read-back verification failed: the following replacements were not found in the persisted content: " ++
    joinSep ", " missing

/-- Modelled from the spec: `verifySearchReplaceResults` lives in
`src/tools/diff.ts`, whose implementation is not among the provided sources
(only its callers in the note handlers and its unit tests are).  Following
the spec: for every edit with non-empty replacement, assert it is a
substring of the persisted content (edits with empty replacement are never
checked); collect all missing replacements, each truncated to at most 200
characters with a `"..."` suffix when longer, and fail with a
`ReadbackMismatch` error listing only the missing ones. -/
def verifySearchReplaceResults (persistedContent : String)
    (changes : List SearchReplaceBlock) : Except DiffApplicationError Unit :=
  let missing := missingReplacements persistedContent changes
  if missing.isEmpty then Except.ok ()
  else Except.error ⟨readbackMismatchMsg missing⟩

/-! ## Basic facts about the string model -/

theorem strToList_append (a b : String) : (a ++ b).toList = a.toList ++ b.toList := rfl

theorem strToList_mk (l : List Char) : (String.mk l).toList = l := rfl

theorem strLength_mk (l : List Char) : (String.mk l).length = l.length := rfl

theorem strLength_toList (s : String) : s.toList.length = s.length := rfl

theorem toList_ne_nil {s : String} (h : s ≠ "") : s.toList ≠ [] := by
  intro h2
  exact h (congrArg String.mk h2)

theorem startsChars_iff :
    ∀ p l : List Char, startsChars p l = true ↔ ∃ t, l = p ++ t := by
  intro p
  induction p with
  | nil => intro l; simp [startsChars]
  | cons a as ih =>
    intro l
    cases l with
    | nil =>
      simp only [startsChars, Bool.false_eq_true, false_iff]
      intro ⟨t, ht⟩
      simp at ht
    | cons b bs =>
      simp only [startsChars, Bool.and_eq_true, beq_iff_eq, ih bs, List.cons_append,
        List.cons.injEq]
      constructor
      · rintro ⟨rfl, t, rfl⟩; exact ⟨t, rfl, rfl⟩
      · rintro ⟨t, rfl, rfl⟩; exact ⟨rfl, t, rfl⟩

theorem startsChars_self_append (p t : List Char) : startsChars p (p ++ t) = true :=
  (startsChars_iff p (p ++ t)).mpr ⟨t, rfl⟩

theorem startsChars_length_le {p l : List Char} (h : startsChars p l = true) :
    p.length ≤ l.length := by
  obtain ⟨t, rfl⟩ := (startsChars_iff p l).mp h
  simp

theorem startsChars_nil_of_cons {a : Char} {as : List Char} :
    startsChars (a :: as) [] = false := rfl

/-! ## C7: empty search string prepends -/

/-- C7: for every content `C` and replacement `P`, an edit with empty
`old_string` prepends `P` to `C`: `applySearchReplace C [{"", P}] = ok (P ++ C)`.
No occurrence scan happens and the edit never fails. -/
theorem c7_empty_search_prepends (C P : String) :
    applySearchReplace C [⟨"", P⟩] = Except.ok (P ++ C) := by
  simp [applySearchReplace, applySearchReplaceStep, List.foldlM]

/-! ## C5: tokens containing `!` and the segment classifier

The unit test at tests/unit/queryPreprocessor.test.ts:117-120 expects
`preprocessSearchQuery('important! or urgent!')` to be rewritten to
`note.content *=* important! OR note.content *=* urgent!`, and the spec says
tokens merely ending in `!` count as plain fulltext words.  The code's
classifier, however, rejects every token containing `!` anywhere (the regex
`[=!<>]`), so both segments are classified structured and the query is
returned unchanged. -/

/-- C5: what the code actually does on the test input — `isBareFulltextSegment`
classifies `important!` and `urgent!` as structured (their `!` matches the
regex `[=!<>]`), so no segment is bare fulltext and
`preprocessSearchQuery "important! or urgent!"` returns the query unchanged,
contradicting the repository's own unit test, which expects
`"note.content *=* important! OR note.content *=* urgent!"`. -/
theorem c5_bang_token_not_bare :
    preprocessSearchQuery "important! or urgent!" = "important! or urgent!" ∧
    isBareFulltextSegment ["important!"] = false ∧
    isBareFulltextSegment ["urgent!"] = false ∧
    preprocessSearchQuery "important! or urgent!" ≠
      "note.content *=* important! OR note.content *=* urgent!" := by
  refine ⟨by decide, by decide, by decide, by decide⟩

/-! ## C4: when the conversion function runs -/

instance {ε α : Type} [DecidableEq ε] [DecidableEq α] : DecidableEq (Except ε α) := fun a b =>
  match a, b with
  | Except.ok x, Except.ok y =>
    if h : x = y then isTrue (by rw [h]) else isFalse fun he => h (Except.ok.inj he)
  | Except.error x, Except.error y =>
    if h : x = y then isTrue (by rw [h]) else isFalse fun he => h (Except.error.inj he)
  | Except.ok _, Except.error _ => isFalse fun he => Except.noConfusion he
  | Except.error _, Except.ok _ => isFalse fun he => Except.noConfusion he

/-- C4 counterexample: `resolveContent` applies `convertFn` in edits mode as
well.  With existing content `"ab"`, a single edit `a → x` and the
conversion function appending `"!"`, the result is `ok "xb!"`, not the
applier's output `ok "xb"`: the conversion function was invoked in `changes`
mode, contradicting the claim that it runs only in full-replacement mode. -/
theorem c4_counterexample :
    resolveContent (fun _ _ => none) "ab" ⟨none, some [⟨"a", "x"⟩], none⟩
        (some fun s => s ++ "!") = Except.ok "xb!" ∧
    applySearchReplace "ab" [⟨"a", "x"⟩] = Except.ok "xb" ∧
    resolveContent (fun _ _ => none) "ab" ⟨none, some [⟨"a", "x"⟩], none⟩
        (some fun s => s ++ "!") ≠ applySearchReplace "ab" [⟨"a", "x"⟩] := by
  refine ⟨by decide, by decide, by decide⟩

/-- C4 amended: `resolveContent` applies `convertFn` (when supplied) to the
resolved content in every mode — it acts as a final `Except.map` after the
dispatch — and when no conversion function is supplied, the edits and patch
modes return exactly the corresponding applier's output.  (In the
repository, the only caller passes a conversion function solely in
full-replacement mode, and the request schema rejects `format="markdown"`
with `changes`/`patch`.) -/
theorem c4_convert_runs_in_every_mode :
    (∀ ap ex (inp : ContentInput) f,
      resolveContent ap ex inp (some f) = (resolveContent ap ex inp none).map f) ∧
    (∀ ap ex chs,
      resolveContent ap ex ⟨none, some chs, none⟩ none = applySearchReplace ex chs) ∧
    (∀ ap ex p,
      resolveContent ap ex ⟨none, none, some p⟩ none = applyUnifiedDiff ap ex p) := by
  refine ⟨?_, ?_, ?_⟩
  · intro ap ex inp f
    unfold resolveContent
    cases hres : (match inp.content with
      | some c => Except.ok c
      | none =>
        match inp.changes with
        | some chs => applySearchReplace ex chs
        | none =>
          match inp.patch with
          | some p => applyUnifiedDiff ap ex p
          | none => Except.error ⟨noModeMsg⟩ :
        Except DiffApplicationError String) with
    | ok r => simp [Except.map]
    | error e => simp [Except.map]
  · intro ap ex chs
    cases h : applySearchReplace ex chs with
    | ok r => simp [resolveContent, h]
    | error e => simp [resolveContent, h]
  · intro ap ex p
    cases h : applyUnifiedDiff ap ex p with
    | ok r => simp [resolveContent, h]
    | error e => simp [resolveContent, h]

/-! ## C9: mode precedence in `resolveContent` -/

theorem notFoundMsg_headChar (S : String) :
    (notFoundMsg S).toList.head? = some 'S' := rfl

theorem ambiguousMsg_headChar (S : String) :
    (ambiguousMsg S).toList.head? = some 'S' := rfl

theorem patchFailedMsg_headChar : patchFailedMsg.toList.head? = some 'U' := rfl

theorem noModeMsg_headChar : noModeMsg.toList.head? = some 'N' := rfl

theorem notFoundMsg_ne_noModeMsg (S : String) : notFoundMsg S ≠ noModeMsg := by
  intro h
  have h2 : (notFoundMsg S).toList.head? = noModeMsg.toList.head? := by rw [h]
  rw [notFoundMsg_headChar, noModeMsg_headChar] at h2
  simp at h2

theorem ambiguousMsg_ne_noModeMsg (S : String) : ambiguousMsg S ≠ noModeMsg := by
  intro h
  have h2 : (ambiguousMsg S).toList.head? = noModeMsg.toList.head? := by rw [h]
  rw [ambiguousMsg_headChar, noModeMsg_headChar] at h2
  simp at h2

theorem patchFailedMsg_ne_noModeMsg : patchFailedMsg ≠ noModeMsg := by
  intro h
  have h2 : patchFailedMsg.toList.head? = noModeMsg.toList.head? := by rw [h]
  rw [patchFailedMsg_headChar, noModeMsg_headChar] at h2
  simp at h2

/-- Error payloads produced by `applySearchReplace` are always a NotFound or
an Ambiguous message. -/
theorem applySearchReplace_error_shape :
    ∀ (chs : List SearchReplaceBlock) (C : String) (e : DiffApplicationError),
      applySearchReplace C chs = Except.error e →
      ∃ S, e.message = notFoundMsg S ∨ e.message = ambiguousMsg S := by
  intro chs
  induction chs with
  | nil => intro C e h; simp [applySearchReplace, List.foldlM, pure, Except.pure] at h
  | cons b t ih =>
    intro C e h
    rw [applySearchReplace, List.foldlM_cons] at h
    cases hstep : applySearchReplaceStep C b with
    | ok r =>
      rw [hstep] at h
      simp only [Bind.bind, Except.bind] at h
      exact ih r e h
    | error e0 =>
      rw [hstep] at h
      simp only [Bind.bind, Except.bind, Except.error.injEq] at h
      subst h
      unfold applySearchReplaceStep at hstep
      by_cases hb : b.old_string = ""
      · simp [hb] at hstep
      · rw [if_neg hb] at hstep
        cases hfind : strIndexOfFrom C b.old_string 0 with
        | none =>
          rw [hfind] at hstep
          simp at hstep
          exact ⟨b.old_string, Or.inl (by rw [← hstep])⟩
        | some i =>
          simp only [hfind] at hstep
          by_cases hsnd : (strIndexOfFrom C b.old_string (i + 1)).isSome
          · rw [if_pos hsnd] at hstep
            simp at hstep
            exact ⟨b.old_string, Or.inr (by rw [← hstep])⟩
          · rw [if_neg hsnd] at hstep
            simp at hstep

/-- C9: `resolveContent` does not enforce mode exclusivity — `content` takes
precedence over `changes`, and `changes` over `patch`; the no-mode error
occurs exactly when none of the three fields is populated. -/
theorem c9_mode_precedence :
    ∀ ap ex (inp : ContentInput) f,
      (∀ c, inp.content = some c →
        resolveContent ap ex inp f = resolveContent ap ex ⟨some c, none, none⟩ f) ∧
      (∀ chs, inp.content = none → inp.changes = some chs →
        resolveContent ap ex inp f = resolveContent ap ex ⟨none, some chs, none⟩ f) ∧
      resolveContent ap ex ⟨none, none, none⟩ f = Except.error ⟨noModeMsg⟩ ∧
      (resolveContent ap ex inp f = Except.error ⟨noModeMsg⟩ →
        inp.content = none ∧ inp.changes = none ∧ inp.patch = none) := by
  intro ap ex inp f
  refine ⟨?_, ?_, ?_, ?_⟩
  · intro c hc
    simp [resolveContent, hc]
  · intro chs hc hch
    simp [resolveContent, hc, hch]
  · simp [resolveContent]
  · intro h
    cases hc : inp.content with
    | some c => simp [resolveContent, hc] at h
    | none =>
      cases hch : inp.changes with
      | some chs =>
        rw [resolveContent] at h
        simp only [hc, hch] at h
        cases hres : applySearchReplace ex chs with
        | ok r => rw [hres] at h; simp at h
        | error e =>
          rw [hres] at h
          simp at h
          obtain ⟨S, hS⟩ := applySearchReplace_error_shape chs ex e hres
          rw [h] at hS
          rcases hS with h1 | h1
          · exact absurd h1.symm (notFoundMsg_ne_noModeMsg S)
          · exact absurd h1.symm (ambiguousMsg_ne_noModeMsg S)
      | none =>
        cases hp : inp.patch with
        | some p =>
          rw [resolveContent] at h
          simp only [hc, hch, hp] at h
          unfold applyUnifiedDiff at h
          cases hap : ap ex p with
          | none =>
            rw [hap] at h
            simp at h
            exact absurd h patchFailedMsg_ne_noModeMsg
          | some r => rw [hap] at h; simp at h
        | none => simp [hc, hch, hp]

/-- C9 witness: concrete instances of the precedence equations and the
no-mode error. -/
theorem c9_mode_precedence_witness :
    resolveContent (fun _ _ => none) "ab" ⟨some "c", some [⟨"a", "x"⟩], some "p"⟩ none =
      resolveContent (fun _ _ => none) "ab" ⟨some "c", none, none⟩ none ∧
    resolveContent (fun _ _ => none) "ab" ⟨none, some [⟨"a", "x"⟩], some "p"⟩ none =
      resolveContent (fun _ _ => none) "ab" ⟨none, some [⟨"a", "x"⟩], none⟩ none ∧
    resolveContent (fun _ _ => none) "ab" ⟨none, none, none⟩ none =
      Except.error ⟨noModeMsg⟩ := by
  refine ⟨?_, ?_, ?_⟩
  · exact (c9_mode_precedence (fun _ _ => none) "ab"
      ⟨some "c", some [⟨"a", "x"⟩], some "p"⟩ none).1 "c" rfl
  · exact (c9_mode_precedence (fun _ _ => none) "ab"
      ⟨none, some [⟨"a", "x"⟩], some "p"⟩ none).2.1 [⟨"a", "x"⟩] rfl rfl
  · exact (c9_mode_precedence (fun _ _ => none) "ab"
      ⟨none, none, none⟩ none).2.2.1

/-! ## Occurrence positions and `indexOf` -/

theorem mem_occList {hay needle : List Char} {i : Nat} :
    i ∈ occList hay needle ↔
      i ≤ hay.length ∧ startsChars needle (hay.drop i) = true := by
  simp [occList, List.mem_filter, List.mem_range, Nat.lt_succ_iff]

theorem occList_pairwise (hay needle : List Char) :
    (occList hay needle).Pairwise (· < ·) :=
  (List.pairwise_lt_range _).filter _

theorem occ_le_length {hay needle : List Char} {i : Nat} (hne : needle ≠ [])
    (h : startsChars needle (hay.drop i) = true) : i ≤ hay.length := by
  by_contra hlt
  push_neg at hlt
  have hdrop : hay.drop i = [] := List.drop_eq_nil_of_le (le_of_lt hlt)
  rw [hdrop] at h
  cases needle with
  | nil => exact hne rfl
  | cons a as => exact absurd h (by simp [startsChars])

/-- Core fact shared by C2 and C3: with exactly one occurrence position `i`,
a single edit replaces it and succeeds. -/
theorem single_occurrence_step (C S R : String) (hS : S ≠ "")
    (hocc : occurrencesOf C S = 1) :
    ∀ i, startsChars S.toList (C.toList.drop i) = true →
      applySearchReplace C [⟨S, R⟩] =
        Except.ok (String.mk (C.toList.take i ++ R.toList ++
          C.toList.drop (i + S.length))) := by
  intro i hi
  have hSl : S.toList ≠ [] := toList_ne_nil hS
  obtain ⟨j, hj⟩ := List.length_eq_one.mp hocc
  have hmem : i ∈ occList C.toList S.toList :=
    mem_occList.mpr ⟨occ_le_length hSl hi, hi⟩
  have hij : i = j := by rw [hj] at hmem; simpa using hmem
  subst hij
  have hfind : strIndexOfFrom C S 0 = some i := by
    rw [strIndexOfFrom, hj]
    simp [List.find?]
  have hsnd : strIndexOfFrom C S (i + 1) = none := by
    rw [strIndexOfFrom, hj]
    simp [List.find?]
  simp [applySearchReplace, List.foldlM, applySearchReplaceStep, hS, hfind, hsnd]

/-- C2: a single edit on a search string with exactly one occurrence
replaces that occurrence and the result's length is
`C.length - S.length + R.length`. -/
theorem c2_single_replace (C S R : String) (hS : S ≠ "")
    (hocc : occurrencesOf C S = 1) :
    ∀ i, startsChars S.toList (C.toList.drop i) = true →
      applySearchReplace C [⟨S, R⟩] =
        Except.ok (String.mk (C.toList.take i ++ R.toList ++
          C.toList.drop (i + S.length))) ∧
      (String.mk (C.toList.take i ++ R.toList ++
          C.toList.drop (i + S.length))).length =
        C.length - S.length + R.length := by
  intro i hi
  refine ⟨single_occurrence_step C S R hS hocc i hi, ?_⟩
  have hSl : S.toList ≠ [] := toList_ne_nil hS
  have hiC : i ≤ C.length := occ_le_length hSl hi
  have hle : i + S.length ≤ C.length := by
    obtain ⟨t, ht⟩ := (startsChars_iff _ _).mp hi
    have hlen := congrArg List.length ht
    simp [List.length_drop] at hlen
    have h1 : C.toList.length = C.length := rfl
    have h2 : S.toList.length = S.length := rfl
    omega
  have h1 : C.toList.length = C.length := rfl
  have h2 : S.toList.length = S.length := rfl
  have h3 : R.toList.length = R.length := rfl
  simp [strLength_mk, List.length_append, List.length_take, List.length_drop]
  omega

/-- C2 witness: replacing the unique occurrence of `"bc"` in `"abcd"` by
`"XYZ"` yields `"aXYZd"` of length `4 - 2 + 3`. -/
theorem c2_single_replace_witness :
    applySearchReplace "abcd" [⟨"bc", "XYZ"⟩] =
      Except.ok (String.mk ("abcd".toList.take 1 ++ "XYZ".toList ++
        "abcd".toList.drop (1 + "bc".length))) ∧
    (String.mk ("abcd".toList.take 1 ++ "XYZ".toList ++
        "abcd".toList.drop (1 + "bc".length))).length =
      "abcd".length - "bc".length + "XYZ".length :=
  c2_single_replace "abcd" "bc" "XYZ" (by decide) (by decide) 1 (by decide)

/-! ## Substring containment facts for the error messages -/

theorem contains_iff (hay sub : String) :
    containsStr hay sub = true ↔
      ∃ i, i ≤ hay.toList.length ∧ startsChars sub.toList (hay.toList.drop i) = true := by
  rw [containsStr]
  rw [Bool.not_eq_true']
  constructor
  · intro h
    rcases hne : occList hay.toList sub.toList with _ | ⟨a, rest⟩
    · rw [hne] at h; simp at h
    · have : a ∈ occList hay.toList sub.toList := by rw [hne]; simp
      obtain ⟨h1, h2⟩ := mem_occList.mp this
      exact ⟨a, h1, h2⟩
  · intro ⟨i, h1, h2⟩
    have : i ∈ occList hay.toList sub.toList := mem_occList.mpr ⟨h1, h2⟩
    rcases hne : occList hay.toList sub.toList with _ | ⟨a, rest⟩
    · rw [hne] at this; simp at this
    · rfl

theorem contains_append_right (a b s : String) (h : containsStr a s = true) :
    containsStr (a ++ b) s = true := by
  rw [contains_iff] at h ⊢
  obtain ⟨i, hi, hst⟩ := h
  refine ⟨i, ?_, ?_⟩
  · rw [strToList_append, List.length_append]; omega
  · rw [strToList_append, List.drop_append_of_le_length hi]
    obtain ⟨t, ht⟩ := (startsChars_iff _ _).mp hst
    rw [ht, List.append_assoc]
    exact startsChars_self_append _ _

theorem contains_middle (a s b : String) : containsStr ((a ++ s) ++ b) s = true := by
  rw [contains_iff]
  refine ⟨a.toList.length, ?_, ?_⟩
  · rw [strToList_append, strToList_append, List.length_append, List.length_append]
    omega
  · rw [strToList_append, strToList_append, List.append_assoc, List.drop_left]
    exact startsChars_self_append _ _

/-! ## C3: error behaviour of a single search/replace edit -/

/-- C3: for nonempty `S`, a single edit errors exactly when `S` is absent
(NotFound message containing "could not find") or occurs a second time
(Ambiguous message containing "ambiguous"); each message echoes `S`
truncated to at most 100 characters with a `"..."` suffix when longer, and
a unique occurrence never throws. -/
theorem c3_error_conditions (C S R : String) (hS : S ≠ "") :
    (occurrencesOf C S = 0 →
      applySearchReplace C [⟨S, R⟩] = Except.error ⟨notFoundMsg S⟩) ∧
    (2 ≤ occurrencesOf C S →
      applySearchReplace C [⟨S, R⟩] = Except.error ⟨ambiguousMsg S⟩) ∧
    (occurrencesOf C S = 1 →
      ∃ r, applySearchReplace C [⟨S, R⟩] = Except.ok r) ∧
    containsStr (notFoundMsg S) "could not find" = true ∧
    containsStr (notFoundMsg S) (truncateTo 100 S) = true ∧
    containsStr (ambiguousMsg S) "ambiguous" = true ∧
    containsStr (ambiguousMsg S) (truncateTo 100 S) = true ∧
    (S.length ≤ 100 → truncateTo 100 S = S) ∧
    (100 < S.length →
      truncateTo 100 S = String.mk (S.toList.take 100) ++ "...") := by
  refine ⟨?_, ?_, ?_, ?_, ?_, ?_, ?_, ?_, ?_⟩
  · intro h0
    have hnil : occList C.toList S.toList = [] := List.length_eq_zero.mp h0
    have hfind : strIndexOfFrom C S 0 = none := by
      rw [strIndexOfFrom, hnil]; rfl
    simp [applySearchReplace, List.foldlM, applySearchReplaceStep, hS, hfind]
  · intro h2
    rw [occurrencesOf] at h2
    rcases hl : occList C.toList S.toList with _ | ⟨a, rest⟩
    · rw [hl] at h2; simp at h2
    · rcases rest with _ | ⟨b, t⟩
      · rw [hl] at h2; simp at h2
      · have hab : a < b := by
          have hp := occList_pairwise C.toList S.toList
          rw [hl] at hp
          exact (List.pairwise_cons.mp hp).1 b (by simp)
        have hfind : strIndexOfFrom C S 0 = some a := by
          rw [strIndexOfFrom, hl]
          simp [List.find?]
        have hsnd : strIndexOfFrom C S (a + 1) = some b := by
          rw [strIndexOfFrom, hl]
          rw [List.find?_cons_of_neg _ (by simp only [decide_eq_true_eq]; omega)]
          rw [List.find?_cons_of_pos _ (by simp only [decide_eq_true_eq]; omega)]
        simp [applySearchReplace, List.foldlM, applySearchReplaceStep, hS, hfind, hsnd]
  · intro h1
    obtain ⟨j, hj⟩ := List.length_eq_one.mp h1
    have hjm : j ∈ occList C.toList S.toList := by rw [hj]; simp
    have hst := (mem_occList.mp hjm).2
    exact ⟨_, single_occurrence_step C S R hS h1 j hst⟩
  · exact contains_append_right _ _ _
      (contains_append_right _ _ _ (by decide))
  · exact contains_middle _ _ _
  · exact contains_append_right _ _ _
      (contains_append_right _ _ _ (by decide))
  · exact contains_middle _ _ _
  · intro h
    rw [truncateTo, if_neg (by omega)]
  · intro h
    rw [truncateTo, if_pos h]

/-- C3 witness: concrete NotFound and Ambiguous failures, and the message
containment facts at a concrete search string. -/
theorem c3_error_conditions_witness :
    applySearchReplace "ab" [⟨"zz", "X"⟩] = Except.error ⟨notFoundMsg "zz"⟩ ∧
    applySearchReplace "abcabc" [⟨"abc", "X"⟩] =
      Except.error ⟨ambiguousMsg "abc"⟩ ∧
    containsStr (notFoundMsg "zz") "could not find" = true ∧
    containsStr (ambiguousMsg "abc") "ambiguous" = true :=
  ⟨(c3_error_conditions "ab" "zz" "X" (by decide)).1 (by decide),
   (c3_error_conditions "abcabc" "abc" "X" (by decide)).2.1 (by decide),
   (c3_error_conditions "ab" "zz" "X" (by decide)).2.2.2.1,
   (c3_error_conditions "abcabc" "abc" "X" (by decide)).2.2.2.2.2.1⟩

/-! ## C8: read-back verification (spec-modelled) -/

/-- C8: `verifySearchReplaceResults` passes exactly when every edit with a
non-empty replacement is a substring of the persisted content (edits with
empty replacement are never checked); otherwise it fails with a
ReadbackMismatch error listing exactly the missing replacements — all of
them and only them, in edit order — each truncated to at most 200
characters with a `"..."` suffix when longer. -/
theorem c8_readback_verification (persisted : String)
    (changes : List SearchReplaceBlock) :
    (verifySearchReplaceResults persisted changes = Except.ok () ↔
      ∀ b ∈ changes, b.new_string ≠ "" → containsStr persisted b.new_string = true) ∧
    ((∃ b ∈ changes, b.new_string ≠ "" ∧ containsStr persisted b.new_string = false) →
      verifySearchReplaceResults persisted changes =
        Except.error ⟨readbackMismatchMsg (missingReplacements persisted changes)⟩) ∧
    (missingReplacements persisted changes =
      (changes.filter fun b =>
        !decide (b.new_string = "") && !containsStr persisted b.new_string).map
        fun b => truncateTo 200 b.new_string) ∧
    (∀ s, s ∈ missingReplacements persisted changes ↔
      ∃ b ∈ changes, b.new_string ≠ "" ∧ containsStr persisted b.new_string = false ∧
        s = truncateTo 200 b.new_string) ∧
    (∀ s : String, s.length ≤ 200 → truncateTo 200 s = s) ∧
    (∀ s : String, 200 < s.length →
      truncateTo 200 s = String.mk (s.toList.take 200) ++ "...") := by
  refine ⟨?_, ?_, rfl, ?_, ?_, ?_⟩
  · constructor
    · intro h
      intro b hb hne
      by_contra hnc
      have hbf : (!decide (b.new_string = "") && !containsStr persisted b.new_string) = true := by
        simp [hne]
        simp at hnc
        exact hnc
      have hmem : truncateTo 200 b.new_string ∈ missingReplacements persisted changes := by
        rw [missingReplacements]
        exact List.mem_map_of_mem _ (List.mem_filter.mpr ⟨hb, hbf⟩)
      rw [verifySearchReplaceResults] at h
      rcases hm : missingReplacements persisted changes with _ | ⟨x, xs⟩
      · rw [hm] at hmem; simp at hmem
      · rw [hm] at h; simp at h
    · intro h
      rw [verifySearchReplaceResults]
      have hm : missingReplacements persisted changes = [] := by
        rw [missingReplacements, List.map_eq_nil_iff]
        rw [List.filter_eq_nil_iff]
        intro b hb
        simp only [Bool.and_eq_true, Bool.not_eq_true', decide_eq_false_iff_not,
          Bool.not_eq_true]
        intro hcontra
        exact absurd (h b hb hcontra.1) (by simp [hcontra.2])
      rw [hm]
      rfl
  · intro ⟨b, hb, hne, hnc⟩
    rw [verifySearchReplaceResults]
    have hmem : truncateTo 200 b.new_string ∈ missingReplacements persisted changes := by
      rw [missingReplacements]
      exact List.mem_map_of_mem _ (List.mem_filter.mpr ⟨hb, by simp [hne, hnc]⟩)
    rcases hm : missingReplacements persisted changes with _ | ⟨x, xs⟩
    · rw [hm] at hmem; simp at hmem
    · simp
  · intro s
    rw [missingReplacements]
    simp only [List.mem_map, List.mem_filter, Bool.and_eq_true, Bool.not_eq_true',
      decide_eq_false_iff_not, Bool.not_eq_true]
    constructor
    · rintro ⟨b, ⟨hb, hne, hnc⟩, rfl⟩
      exact ⟨b, hb, hne, hnc, rfl⟩
    · rintro ⟨b, hb, hne, hnc, rfl⟩
      exact ⟨b, ⟨hb, hne, hnc⟩, rfl⟩
  · intro s h
    rw [truncateTo, if_neg (by omega)]
  · intro s h
    rw [truncateTo, if_pos h]

/-- C8 witness: mirroring the unit test, one satisfied and one missing
replacement produce a ReadbackMismatch listing only the missing one. -/
theorem c8_readback_verification_witness :
    verifySearchReplaceResults "<p>First is here</p>"
        [⟨"a", "First is here"⟩, ⟨"b", "Second is missing"⟩] =
      Except.error ⟨readbackMismatchMsg (missingReplacements "<p>First is here</p>"
        [⟨"a", "First is here"⟩, ⟨"b", "Second is missing"⟩])⟩ ∧
    missingReplacements "<p>First is here</p>"
        [⟨"a", "First is here"⟩, ⟨"b", "Second is missing"⟩] =
      ["Second is missing"] :=
  ⟨(c8_readback_verification "<p>First is here</p>"
      [⟨"a", "First is here"⟩, ⟨"b", "Second is missing"⟩]).2.1
      ⟨⟨"b", "Second is missing"⟩, by decide, by decide, by decide⟩,
   by decide⟩

/-! ## Facts about `splitRuns` -/

theorem splitRuns_ne_nil {α : Type} (p : α → Bool) :
    ∀ (l cur : List α), ∀ r ∈ splitRuns p cur l, r ≠ [] := by
  intro l
  induction l with
  | nil =>
    intro cur r hr
    simp only [splitRuns] at hr
    by_cases hc : cur.isEmpty
    · rw [if_pos hc] at hr; simp at hr
    · rw [if_neg hc] at hr
      simp at hr
      subst hr
      simpa [List.isEmpty_iff] using hc
  | cons t rest ih =>
    intro cur r hr
    simp only [splitRuns] at hr
    by_cases hp : p t
    · rw [if_pos hp] at hr
      by_cases hc : cur.isEmpty
      · rw [if_pos hc] at hr
        exact ih [] r hr
      · rw [if_neg hc] at hr
        rcases List.mem_cons.mp hr with h | h
        · subst h; simpa [List.isEmpty_iff] using hc
        · exact ih [] r h
    · rw [if_neg hp] at hr
      exact ih (cur ++ [t]) r hr

theorem splitRuns_mem_src {α : Type} (p : α → Bool) :
    ∀ (l cur : List α), ∀ r ∈ splitRuns p cur l, ∀ x ∈ r, x ∈ cur ∨ x ∈ l := by
  intro l
  induction l with
  | nil =>
    intro cur r hr x hx
    simp only [splitRuns] at hr
    by_cases hc : cur.isEmpty
    · rw [if_pos hc] at hr; simp at hr
    · rw [if_neg hc] at hr
      simp at hr
      subst hr
      exact Or.inl hx
  | cons t rest ih =>
    intro cur r hr x hx
    simp only [splitRuns] at hr
    by_cases hp : p t
    · rw [if_pos hp] at hr
      by_cases hc : cur.isEmpty
      · rw [if_pos hc] at hr
        rcases ih [] r hr x hx with h | h
        · simp at h
        · exact Or.inr (List.mem_cons_of_mem _ h)
      · rw [if_neg hc] at hr
        rcases List.mem_cons.mp hr with h | h
        · subst h; exact Or.inl hx
        · rcases ih [] r h x hx with h2 | h2
          · simp at h2
          · exact Or.inr (List.mem_cons_of_mem _ h2)
    · rw [if_neg hp] at hr
      rcases ih (cur ++ [t]) r hr x hx with h | h
      · rcases List.mem_append.mp h with h2 | h2
        · exact Or.inl h2
        · simp at h2
          subst h2
          exact Or.inr (List.mem_cons_self _ _)
      · exact Or.inr (List.mem_cons_of_mem _ h)

theorem splitRuns_no_sep_mem {α : Type} (p : α → Bool) :
    ∀ (l cur : List α), (∀ x ∈ cur, p x = false) →
      ∀ r ∈ splitRuns p cur l, ∀ x ∈ r, p x = false := by
  intro l
  induction l with
  | nil =>
    intro cur hcur r hr x hx
    simp only [splitRuns] at hr
    by_cases hc : cur.isEmpty
    · rw [if_pos hc] at hr; simp at hr
    · rw [if_neg hc] at hr
      simp at hr
      subst hr
      exact hcur x hx
  | cons t rest ih =>
    intro cur hcur r hr x hx
    simp only [splitRuns] at hr
    by_cases hp : p t
    · rw [if_pos hp] at hr
      by_cases hc : cur.isEmpty
      · rw [if_pos hc] at hr
        exact ih [] (by simp) r hr x hx
      · rw [if_neg hc] at hr
        rcases List.mem_cons.mp hr with h | h
        · subst h; exact hcur x hx
        · exact ih [] (by simp) r h x hx
    · rw [if_neg hp] at hr
      refine ih (cur ++ [t]) ?_ r hr x hx
      intro y hy
      rcases List.mem_append.mp hy with h | h
      · exact hcur y h
      · simp at h; subst h; simpa using hp

theorem splitRuns_append_sep {α : Type} (p : α → Bool) {s : α} (hs : p s = true) :
    ∀ (a cur b : List α),
      splitRuns p cur (a ++ s :: b) = splitRuns p cur a ++ splitRuns p [] b := by
  intro a
  induction a with
  | nil =>
    intro cur b
    simp only [List.nil_append, splitRuns, hs, if_pos]
    by_cases hc : cur.isEmpty
    · rw [if_pos hc, if_pos hc]; simp
    · rw [if_neg hc, if_neg hc]; simp
  | cons x a2 ih =>
    intro cur b
    simp only [List.cons_append, splitRuns]
    by_cases hp : p x
    · rw [if_pos hp, if_pos hp]
      by_cases hc : cur.isEmpty
      · rw [if_pos hc, if_pos hc]
        exact ih [] b
      · rw [if_neg hc, if_neg hc]
        simp only [List.append_eq]
        rw [ih [] b]
        simp
    · rw [if_neg hp, if_neg hp]
      exact ih (cur ++ [x]) b

theorem splitRuns_no_sep_eq {α : Type} (p : α → Bool) :
    ∀ (l cur : List α), (∀ x ∈ l, p x = false) →
      splitRuns p cur l = if (cur ++ l).isEmpty then [] else [cur ++ l] := by
  intro l
  induction l with
  | nil => intro cur h; simp only [splitRuns, List.append_nil]
  | cons t rest ih =>
    intro cur h
    have hpt : p t = false := h t (List.mem_cons_self _ _)
    simp only [splitRuns, hpt, Bool.false_eq_true, if_false]
    rw [ih (cur ++ [t]) fun x hx => h x (List.mem_cons_of_mem _ hx)]
    simp

theorem splitRuns_acc_cons {α : Type} (p : α → Bool) :
    ∀ (l cur : List α), cur ≠ [] →
      splitRuns p cur l =
        (cur ++ l.takeWhile fun x => !p x) ::
          splitRuns p [] (l.dropWhile fun x => !p x) := by
  intro l
  induction l with
  | nil =>
    intro cur hcur
    simp [splitRuns, hcur]
  | cons t rest ih =>
    intro cur hcur
    by_cases hp : p t
    · have h1 : (!p t) = false := by simp [hp]
      simp only [splitRuns, hp, if_pos, List.takeWhile_cons, h1]
      rw [if_neg (by simpa [List.isEmpty_iff] using hcur)]
      simp only [List.dropWhile_cons, h1, Bool.false_eq_true, if_false]
      simp only [splitRuns, hp, if_pos]
      simp
    · have h1 : (!p t) = true := by simp [hp]
      simp only [splitRuns, hp, Bool.false_eq_true, if_false]
      rw [ih (cur ++ [t]) (by simp)]
      simp only [List.takeWhile_cons, h1, if_pos, List.dropWhile_cons]
      simp

theorem splitRuns_cons_neg {α : Type} (p : α → Bool) (c : α) (l : List α)
    (hp : p c = false) :
    splitRuns p [] (c :: l) =
      ((c :: l).takeWhile fun x => !p x) ::
        splitRuns p [] ((c :: l).dropWhile fun x => !p x) := by
  have h0 : splitRuns p [] (c :: l) = splitRuns p [c] l := by
    simp [splitRuns, hp]
  rw [h0, splitRuns_acc_cons p l [c] (by simp)]
  have h1 : (!p c) = true := by simp [hp]
  simp [List.takeWhile_cons, List.dropWhile_cons, h1]

theorem splitRuns_acc_mem {α : Type} (p : α → Bool) :
    ∀ (l cur : List α), ∀ x ∈ cur, ∃ r ∈ splitRuns p cur l, x ∈ r := by
  intro l
  induction l with
  | nil =>
    intro cur x hx
    have hcur : cur ≠ [] := fun h => by simp [h] at hx
    refine ⟨cur, ?_, hx⟩
    simp [splitRuns, hcur]
  | cons t rest ih =>
    intro cur x hx
    have hcur : cur ≠ [] := fun h => by simp [h] at hx
    simp only [splitRuns]
    by_cases hp : p t
    · rw [if_pos hp, if_neg (by simpa [List.isEmpty_iff] using hcur)]
      exact ⟨cur, List.mem_cons_self _ _, hx⟩
    · rw [if_neg hp]
      exact ih (cur ++ [t]) x (List.mem_append.mpr (Or.inl hx))

theorem splitRuns_covers {α : Type} (p : α → Bool) :
    ∀ (l cur : List α) (x : α), x ∈ l → p x = false →
      ∃ r ∈ splitRuns p cur l, x ∈ r := by
  intro l
  induction l with
  | nil => intro cur x hx; simp at hx
  | cons t rest ih =>
    intro cur x hx hpx
    rcases List.mem_cons.mp hx with h | h
    · subst h
      simp only [splitRuns, hpx, Bool.false_eq_true, if_false]
      exact splitRuns_acc_mem p rest (cur ++ [x]) x (by simp)
    · simp only [splitRuns]
      by_cases hp : p t
      · rw [if_pos hp]
        by_cases hc : cur.isEmpty
        · rw [if_pos hc]
          exact ih [] x h hpx
        · rw [if_neg hc]
          obtain ⟨r, hr, hxr⟩ := ih [] x h hpx
          exact ⟨r, List.mem_cons_of_mem _ hr, hxr⟩
      · rw [if_neg hp]
        exact ih (cur ++ [t]) x h hpx

/-! ## Word splitting of quote-free inputs -/

/-- Splitting a character list into maximal non-whitespace runs; on
quote-free input the tokenizer degenerates to exactly this. -/
def wordsJs (l : List Char) : List (List Char) :=
  splitRuns isJsWhitespace [] l

theorem tokenizeFuel_no_quote :
    ∀ (fuel : Nat) (l : List Char), l.length < fuel → '"' ∉ l →
      tokenizeFuel fuel l = wordsJs l := by
  intro fuel
  induction fuel with
  | zero => intro l h; omega
  | succ n ih =>
    intro l hlen hq
    cases l with
    | nil => simp [tokenizeFuel, wordsJs, splitRuns]
    | cons c rest =>
      have hcq : c ≠ '"' := fun h => hq (h ▸ List.mem_cons_self c rest)
      have hqrest : '"' ∉ rest := fun h => hq (List.mem_cons_of_mem _ h)
      by_cases hws : isJsWhitespace c
      · simp only [tokenizeFuel, if_pos hws]
        rw [ih rest (by simp at hlen ⊢; omega) hqrest]
        simp [wordsJs, splitRuns, hws]
      · simp only [tokenizeFuel, if_neg hws, if_neg hcq]
        have hlt : ((c :: rest).dropWhile fun x => !isJsWhitespace x).length < n := by
          rw [List.dropWhile_cons_of_pos (by simp [hws])]
          have := (List.dropWhile_sublist (l := rest)
            (p := fun x => !isJsWhitespace x)).length_le
          simp at hlen
          omega
        have hqd : '"' ∉ (c :: rest).dropWhile fun x => !isJsWhitespace x := by
          intro hmem
          exact hq ((List.dropWhile_sublist _).mem hmem)
        rw [ih _ hlt hqd]
        rw [wordsJs, wordsJs, splitRuns_cons_neg isJsWhitespace c rest (by simpa using hws)]

theorem tokenize_no_quote (q : String) (hq : '"' ∉ q.toList) :
    tokenize q = (wordsJs q.toList).map fun l => String.mk l := by
  rw [tokenize, tokenizeFuel_no_quote _ _ (by omega) hq]

/-! ## C6: queries with no top-level OR token are returned unchanged -/

/-- C6: when no token of the query is an unquoted standalone `or`/`OR`
token, `preprocessSearchQuery` returns the query unchanged (this covers the
empty query, whitespace-only queries, `or` inside quoted phrases and `or`
inside larger words). -/
theorem c6_no_or_token_unchanged (Q : String)
    (h : ∀ t ∈ tokenize Q, isOrOperator t = false) :
    preprocessSearchQuery Q = Q := by
  have hseg := splitRuns_no_sep_eq isOrOperator (tokenize Q) [] h
  simp only [List.nil_append] at hseg
  by_cases he : (tokenize Q).isEmpty
  · have h0 : (tokenize Q).length = 0 := by
      simp [List.isEmpty_iff] at he
      simp [he]
    simp [preprocessSearchQuery, h0]
  · have h0 : ¬(tokenize Q).length = 0 := by
      simp [List.isEmpty_iff] at he
      simp [he]
    rw [if_neg he] at hseg
    simp [preprocessSearchQuery, h0, hseg]

/-- C6 witness: `or` inside a quoted phrase is not an operator and the
query is returned unchanged. -/
theorem c6_no_or_token_unchanged_witness :
    preprocessSearchQuery "\"this or that\"" = "\"this or that\"" :=
  c6_no_or_token_unchanged "\"this or that\"" (by decide)

/-! ## C1: the OR rewrite -/

/-- Reference form of the rewrite, stated from the spec's words: a
single-token bare segment becomes `note.content *=* <token>`, a multi-token
bare segment becomes a parenthesized AND-chain in original token order. -/
def specWrapBare (seg : List String) : String :=
  match seg with
  | [t] => "note.content *=* " ++ t
  | _ => "(" ++ joinSep " AND " (seg.map fun t => "note.content *=* " ++ t) ++ ")"

theorem wrapFulltextSegment_eq_spec (seg : List String) :
    wrapFulltextSegment seg = specWrapBare seg := by
  cases seg with
  | nil => rfl
  | cons a t =>
    cases t with
    | nil => rfl
    | cons b t2 => rfl

/-- C1: when the query splits into at least two top-level OR segments, one
of which is bare fulltext, the result rewrites bare segments per
`specWrapBare`, rejoins structured segments verbatim with single spaces and
joins everything with the literal `" OR "`; in particular
`preprocessSearchQuery "meeting or project"` is
`"note.content *=* meeting OR note.content *=* project"`. -/
theorem c1_or_rewrite :
    (∀ q : String,
      2 ≤ (splitRuns isOrOperator [] (tokenize q)).length →
      (splitRuns isOrOperator [] (tokenize q)).any
          (fun seg => isBareFulltextSegment seg) = true →
      preprocessSearchQuery q =
        joinSep " OR " ((splitRuns isOrOperator [] (tokenize q)).map fun seg =>
          if isBareFulltextSegment seg then specWrapBare seg
          else joinSep " " seg)) ∧
    preprocessSearchQuery "meeting or project" =
      "note.content *=* meeting OR note.content *=* project" := by
  constructor
  · intro q h2 hany
    have h0 : ¬(tokenize q).length = 0 := by
      intro h
      rw [List.length_eq_zero.mp h] at h2
      simp [splitRuns] at h2
    have h1 : ¬(splitRuns isOrOperator [] (tokenize q)).length ≤ 1 := by omega
    simp [preprocessSearchQuery, h0, h1, hany, wrapFulltextSegment_eq_spec]
  · decide

/-- C1 witness: a mixed bare/structured OR query evaluated through the
rewrite equation. -/
theorem c1_or_rewrite_witness :
    2 ≤ (splitRuns isOrOperator [] (tokenize "meeting or #book")).length ∧
    (splitRuns isOrOperator [] (tokenize "meeting or #book")).any
        (fun seg => isBareFulltextSegment seg) = true ∧
    preprocessSearchQuery "meeting or #book" =
      joinSep " OR " ((splitRuns isOrOperator [] (tokenize "meeting or #book")).map
        fun seg =>
          if isBareFulltextSegment seg then specWrapBare seg
          else joinSep " " seg) :=
  ⟨by decide, by decide, c1_or_rewrite.1 "meeting or #book" (by decide) (by decide)⟩

/-! ## C10 counterexample: `preprocessSearchQuery` is not idempotent

On `"a\` + newline + `#b or #t c"d or e`, the quote scan fails in the
original query (escaped line terminator), so `"a\` is a plain token; the
rewrite joins tokens with single spaces, after which a second tokenization
scans the quote across the replaced whitespace, swallows the first `OR`
and the `#` tokens into one quoted token, and produces a fresh bare
segment that a second pass rewrites again. -/

theorem c10_counterexample :
    preprocessSearchQuery (preprocessSearchQuery "\"a\\\n#b or #t c\"d or e") ≠
      preprocessSearchQuery "\"a\\\n#b or #t c\"d or e" := by decide

/-! ## C10 amended: word-level computation of the rewritten output

On a quote-free query the tokenizer is plain word splitting, and the
rewritten output's tokens can be computed exactly: glue words
(`note.content`, `*=*`, `AND`, `OR`, `(note.content`, and a final token
with `)` appended), interleaved with the original tokens. -/

def ncTok : List Char := "note.content".toList

def seTok : List Char := "*=*".toList

def andTok : List Char := "AND".toList

def orTok : List Char := ['O', 'R']

def pncTok : List Char := "(note.content".toList

theorem preL_shape (X : List Char) :
    "note.content *=* ".toList ++ X = ncTok ++ ' ' :: (seTok ++ ' ' :: X) := rfl

theorem andSep_shape (X : List Char) :
    " AND ".toList ++ X = ' ' :: (andTok ++ ' ' :: X) := rfl

theorem orSep_shape (X : List Char) :
    " OR ".toList ++ X = ' ' :: (orTok ++ ' ' :: X) := rfl

theorem paren_shape (X : List Char) : '(' :: (ncTok ++ X) = pncTok ++ X := rfl

/-- Character-level counterpart of `joinSep`. -/
def joinSepL (sep : List Char) : List (List Char) → List Char
  | [] => []
  | [x] => x
  | x :: xs => x ++ sep ++ joinSepL sep xs

theorem joinSep_toList (sep : String) :
    ∀ xs : List String,
      (joinSep sep xs).toList = joinSepL sep.toList (xs.map String.toList) := by
  intro xs
  induction xs with
  | nil => rfl
  | cons x t ih =>
    cases t with
    | nil => rfl
    | cons y t2 =>
      show (x ++ sep ++ joinSep sep (y :: t2)).toList = _
      rw [strToList_append, strToList_append, ih]
      rfl

theorem words_append_sep (a b : List Char) :
    wordsJs (a ++ ' ' :: b) = wordsJs a ++ wordsJs b :=
  splitRuns_append_sep isJsWhitespace (by decide) a [] b

theorem words_single (w : List Char) (hne : w ≠ [])
    (hws : ∀ c ∈ w, isJsWhitespace c = false) : wordsJs w = [w] := by
  rw [wordsJs, splitRuns_no_sep_eq isJsWhitespace w [] hws]
  simp [hne]

theorem words_joinSepL_space :
    ∀ ws : List (List Char),
      (∀ w ∈ ws, w ≠ [] ∧ ∀ c ∈ w, isJsWhitespace c = false) →
      wordsJs (joinSepL [' '] ws) = ws := by
  intro ws
  induction ws with
  | nil => intro h; rfl
  | cons w t ih =>
    intro h
    cases t with
    | nil =>
      show wordsJs w = [w]
      exact words_single w (h w (by simp)).1 (h w (by simp)).2
    | cons w2 t2 =>
      show wordsJs (w ++ [' '] ++ joinSepL [' '] (w2 :: t2)) = _
      rw [List.append_assoc]
      show wordsJs (w ++ ' ' :: joinSepL [' '] (w2 :: t2)) = _
      rw [words_append_sep]
      rw [ih fun x hx => h x (List.mem_cons_of_mem _ hx)]
      rw [words_single w (h w (by simp)).1 (h w (by simp)).2]
      rfl

/-- Expected word sequence of the OR-joined output: the word blocks of the
rewritten segments interleaved with the word `OR`. -/
def interBlocksOR : List (List (List Char)) → List (List Char)
  | [] => []
  | [b] => b
  | b :: bs => b ++ orTok :: interBlocksOR bs

theorem words_joinSepL_or :
    ∀ rs : List (List Char),
      wordsJs (joinSepL " OR ".toList rs) = interBlocksOR (rs.map wordsJs) := by
  intro rs
  induction rs with
  | nil => rfl
  | cons r t ih =>
    cases t with
    | nil => rfl
    | cons r2 t2 =>
      show wordsJs (r ++ " OR ".toList ++ joinSepL " OR ".toList (r2 :: t2)) = _
      rw [List.append_assoc, orSep_shape, words_append_sep, words_append_sep, ih]
      have hOR : wordsJs orTok = [orTok] := by decide
      rw [hOR]
      show wordsJs r ++ (orTok :: interBlocksOR ((r2 :: t2).map wordsJs)) = _
      rfl

/-- Expected words of the tail of a multi-token wrapped segment (everything
after the first `note.content *=* t1`, with the closing paren merged into
the last token). -/
def wrapWordsFrom : List (List Char) → List (List Char)
  | [] => []
  | [t] => [ncTok, seTok, t ++ [')']]
  | t :: rest => ncTok :: seTok :: t :: andTok :: wrapWordsFrom rest

theorem words_wrapFrom :
    ∀ ts : List (List Char),
      (∀ t ∈ ts, t ≠ [] ∧ ∀ c ∈ t, isJsWhitespace c = false) →
      ts ≠ [] →
      wordsJs (joinSepL " AND ".toList
          (ts.map fun t => "note.content *=* ".toList ++ t) ++ [')']) =
        wrapWordsFrom ts := by
  intro ts
  induction ts with
  | nil => intro _ h; exact absurd rfl h
  | cons t rest ih =>
    intro hgood _
    have ht := hgood t (by simp)
    cases rest with
    | nil =>
      show wordsJs (("note.content *=* ".toList ++ t) ++ [')']) = _
      rw [List.append_assoc, preL_shape, words_append_sep, words_append_sep]
      rw [words_single (t ++ [')']) (by simp) ?_]
      · have h1 : wordsJs ncTok = [ncTok] := by decide
        have h2 : wordsJs seTok = [seTok] := by decide
        rw [h1, h2]
        rfl
      · intro c hc
        rcases List.mem_append.mp hc with h | h
        · exact ht.2 c h
        · simp at h; subst h; decide
    | cons t2 rest2 =>
      show wordsJs ((("note.content *=* ".toList ++ t) ++ " AND ".toList ++
        joinSepL " AND ".toList
          ((t2 :: rest2).map fun x => "note.content *=* ".toList ++ x)) ++ [')']) = _
      rw [List.append_assoc, List.append_assoc, List.append_assoc, preL_shape,
        andSep_shape]
      rw [words_append_sep, words_append_sep, words_append_sep, words_append_sep]
      rw [ih (fun x hx => hgood x (List.mem_cons_of_mem _ hx)) (by simp)]
      rw [words_single t ht.1 ht.2]
      have h1 : wordsJs ncTok = [ncTok] := by decide
      have h2 : wordsJs seTok = [seTok] := by decide
      have h3 : wordsJs andTok = [andTok] := by decide
      rw [h1, h2, h3]
      rfl

theorem words_wrap_single (t : List Char) (hne : t ≠ [])
    (hws : ∀ c ∈ t, isJsWhitespace c = false) :
    wordsJs ("note.content *=* ".toList ++ t) = [ncTok, seTok, t] := by
  rw [preL_shape, words_append_sep, words_append_sep, words_single t hne hws]
  have h1 : wordsJs ncTok = [ncTok] := by decide
  have h2 : wordsJs seTok = [seTok] := by decide
  rw [h1, h2]
  rfl

theorem words_wrap_multi (t1 t2 : List Char) (tr : List (List Char))
    (hgood : ∀ t ∈ t1 :: t2 :: tr, t ≠ [] ∧ ∀ c ∈ t, isJsWhitespace c = false) :
    wordsJs ('(' :: (joinSepL " AND ".toList
        ((t1 :: t2 :: tr).map fun t => "note.content *=* ".toList ++ t) ++ [')'])) =
      pncTok :: seTok :: t1 :: andTok :: wrapWordsFrom (t2 :: tr) := by
  have ht1 := hgood t1 (by simp)
  show wordsJs ('(' :: ((("note.content *=* ".toList ++ t1) ++ " AND ".toList ++
      joinSepL " AND ".toList
        ((t2 :: tr).map fun x => "note.content *=* ".toList ++ x)) ++ [')'])) = _
  rw [List.append_assoc, List.append_assoc, List.append_assoc, preL_shape,
    andSep_shape, paren_shape]
  rw [words_append_sep, words_append_sep, words_append_sep, words_append_sep]
  rw [words_wrapFrom (t2 :: tr) (fun x hx => hgood x (List.mem_cons_of_mem _ hx))
    (by simp)]
  rw [words_single t1 ht1.1 ht1.2]
  have h1 : wordsJs pncTok = [pncTok] := by decide
  have h2 : wordsJs seTok = [seTok] := by decide
  have h3 : wordsJs andTok = [andTok] := by decide
  rw [h1, h2, h3]
  rfl

/-- Expected word block of one rewritten segment: a structured segment
rejoined with spaces re-splits into its own tokens; a wrapped bare segment
splits into the glue words and the original tokens. -/
def segWords (seg : List String) : List (List Char) :=
  if isBareFulltextSegment seg then
    match seg.map String.toList with
    | [] => []
    | [t] => [ncTok, seTok, t]
    | t1 :: t2 :: tr => pncTok :: seTok :: t1 :: andTok :: wrapWordsFrom (t2 :: tr)
  else seg.map String.toList

theorem words_rwSeg (seg : List String) (hne : seg ≠ [])
    (hgood : ∀ s ∈ seg, s.toList ≠ [] ∧ ∀ c ∈ s.toList, isJsWhitespace c = false) :
    wordsJs ((if isBareFulltextSegment seg then wrapFulltextSegment seg
      else joinSep " " seg).toList) = segWords seg := by
  by_cases hb : isBareFulltextSegment seg
  · rw [if_pos hb, segWords, if_pos hb]
    cases seg with
    | nil => exact absurd rfl hne
    | cons s rest =>
      cases rest with
      | nil =>
        show wordsJs (("note.content *=* " ++ s).toList) = _
        rw [strToList_append]
        rw [words_wrap_single s.toList (hgood s (by simp)).1 (hgood s (by simp)).2]
        rfl
      | cons s2 rest2 =>
        show wordsJs (("(" ++ joinSep " AND " ((s :: s2 :: rest2).map fun t =>
          "note.content *=* " ++ t) ++ ")").toList) = _
        rw [strToList_append, strToList_append, joinSep_toList]
        have hmap : ((s :: s2 :: rest2).map (fun t => "note.content *=* " ++ t)).map
              String.toList =
            (s.toList :: s2.toList :: rest2.map String.toList).map fun t =>
              "note.content *=* ".toList ++ t := by
          simp only [List.map_cons, List.map_map]
          rfl
        rw [hmap]
        show wordsJs ('(' :: (joinSepL " AND ".toList
          ((s.toList :: s2.toList :: rest2.map String.toList).map fun t =>
            "note.content *=* ".toList ++ t) ++ [')'])) = _
        rw [words_wrap_multi s.toList s2.toList (rest2.map String.toList) ?_]
        · rfl
        · intro t ht
          rcases List.mem_cons.mp ht with h | h
          · subst h; exact hgood s (by simp)
          · rcases List.mem_cons.mp h with h2 | h2
            · subst h2; exact hgood s2 (by simp)
            · obtain ⟨x, hx, rfl⟩ := List.mem_map.mp h2
              exact hgood x (by simp [hx])
  · rw [if_neg hb, segWords, if_neg hb]
    rw [joinSep_toList]
    show wordsJs (joinSepL [' '] (seg.map String.toList)) = _
    apply words_joinSepL_space
    intro w hw
    obtain ⟨s, hs, rfl⟩ := List.mem_map.mp hw
    exact hgood s hs

theorem mem_wrapWordsFrom :
    ∀ (ts : List (List Char)) (w : List Char), w ∈ wrapWordsFrom ts →
      w = ncTok ∨ w = seTok ∨ w = andTok ∨
        (∃ t ∈ ts, w = t) ∨ ∃ t ∈ ts, w = t ++ [')'] := by
  intro ts
  induction ts with
  | nil => intro w hw; simp [wrapWordsFrom] at hw
  | cons t rest ih =>
    intro w hw
    cases rest with
    | nil =>
      simp only [wrapWordsFrom, List.mem_cons, List.not_mem_nil, or_false] at hw
      rcases hw with h | h | h
      · exact Or.inl h
      · exact Or.inr (Or.inl h)
      · exact Or.inr (Or.inr (Or.inr (Or.inr ⟨t, by simp, h⟩)))
    | cons t2 rest2 =>
      simp only [wrapWordsFrom, List.mem_cons] at hw
      rcases hw with h | h | h | h | h
      · exact Or.inl h
      · exact Or.inr (Or.inl h)
      · exact Or.inr (Or.inr (Or.inr (Or.inl ⟨t, by simp, h⟩)))
      · exact Or.inr (Or.inr (Or.inl h))
      · rcases ih w h with h2 | h2 | h2 | ⟨x, hx, h2⟩ | ⟨x, hx, h2⟩
        · exact Or.inl h2
        · exact Or.inr (Or.inl h2)
        · exact Or.inr (Or.inr (Or.inl h2))
        · exact Or.inr (Or.inr (Or.inr (Or.inl
            ⟨x, List.mem_cons_of_mem _ hx, h2⟩)))
        · exact Or.inr (Or.inr (Or.inr (Or.inr
            ⟨x, List.mem_cons_of_mem _ hx, h2⟩)))

theorem mem_segWords (seg : List String) (w : List Char) (hw : w ∈ segWords seg) :
    w = ncTok ∨ w = seTok ∨ w = andTok ∨ w = pncTok ∨
      (∃ s ∈ seg, w = s.toList) ∨ ∃ s ∈ seg, w = s.toList ++ [')'] := by
  rw [segWords] at hw
  by_cases hb : isBareFulltextSegment seg
  · rw [if_pos hb] at hw
    cases seg with
    | nil => simp at hw
    | cons s rest =>
      cases rest with
      | nil =>
        simp only [List.map_cons, List.map_nil, List.mem_cons, List.not_mem_nil,
          or_false] at hw
        rcases hw with h | h | h
        · exact Or.inl h
        · exact Or.inr (Or.inl h)
        · exact Or.inr (Or.inr (Or.inr (Or.inr (Or.inl ⟨s, by simp, h⟩))))
      | cons s2 rest2 =>
        simp only [List.map_cons, List.mem_cons] at hw
        rcases hw with h | h | h | h | h
        · exact Or.inr (Or.inr (Or.inr (Or.inl h)))
        · exact Or.inr (Or.inl h)
        · exact Or.inr (Or.inr (Or.inr (Or.inr (Or.inl ⟨s, by simp, h⟩))))
        · exact Or.inr (Or.inr (Or.inl h))
        · rcases mem_wrapWordsFrom _ w h with h2 | h2 | h2 | ⟨x, hx, h2⟩ | ⟨x, hx, h2⟩
          · exact Or.inl h2
          · exact Or.inr (Or.inl h2)
          · exact Or.inr (Or.inr (Or.inl h2))
          · rcases List.mem_cons.mp hx with h3 | h3
            · subst h3
              exact Or.inr (Or.inr (Or.inr (Or.inr (Or.inl ⟨s2, by simp, h2⟩))))
            · obtain ⟨y, hy, rfl⟩ := List.mem_map.mp h3
              exact Or.inr (Or.inr (Or.inr (Or.inr (Or.inl
                ⟨y, by simp [hy], h2⟩))))
          · rcases List.mem_cons.mp hx with h3 | h3
            · subst h3
              exact Or.inr (Or.inr (Or.inr (Or.inr (Or.inr ⟨s2, by simp, h2⟩))))
            · obtain ⟨y, hy, rfl⟩ := List.mem_map.mp h3
              exact Or.inr (Or.inr (Or.inr (Or.inr (Or.inr
                ⟨y, by simp [hy], h2⟩))))
  · rw [if_neg hb] at hw
    obtain ⟨s, hs, rfl⟩ := List.mem_map.mp hw
    exact Or.inr (Or.inr (Or.inr (Or.inr (Or.inl ⟨s, hs, rfl⟩))))

theorem mem_interBlocksOR :
    ∀ (bs : List (List (List Char))) (w : List Char), w ∈ interBlocksOR bs →
      w = orTok ∨ ∃ b ∈ bs, w ∈ b := by
  intro bs
  induction bs with
  | nil => intro w hw; simp [interBlocksOR] at hw
  | cons b t ih =>
    intro w hw
    cases t with
    | nil => exact Or.inr ⟨b, by simp, hw⟩
    | cons b2 t2 =>
      rcases List.mem_append.mp hw with h | h
      · exact Or.inr ⟨b, by simp, h⟩
      · rcases List.mem_cons.mp h with h2 | h2
        · exact Or.inl h2
        · rcases ih w h2 with h3 | ⟨bb, hbb, h3⟩
          · exact Or.inl h3
          · exact Or.inr ⟨bb, List.mem_cons_of_mem _ hbb, h3⟩

theorem splitRuns_map {α β : Type} (p : β → Bool) (f : α → β) :
    ∀ (l cur : List α),
      splitRuns p (cur.map f) (l.map f) =
        (splitRuns (fun x => p (f x)) cur l).map (List.map f) := by
  intro l
  induction l with
  | nil =>
    intro cur
    cases cur <;> simp [splitRuns]
  | cons t rest ih =>
    intro cur
    simp only [List.map_cons, splitRuns]
    by_cases hp : p (f t)
    · rw [if_pos hp, if_pos hp]
      cases cur with
      | nil =>
        simp only [List.map_nil, List.isEmpty_nil, if_pos]
        have := ih []
        simp only [List.map_nil] at this
        rw [this]
      | cons c ct =>
        simp only [List.map_cons, List.isEmpty_cons, Bool.false_eq_true, if_false]
        have := ih []
        simp only [List.map_nil] at this
        rw [this]
    · rw [if_neg hp, if_neg hp]
      rw [show (cur.map f ++ [f t]) = (cur ++ [t]).map f by simp]
      exact ih (cur ++ [t])

theorem splitRuns_interBlocks (p : List Char → Bool) (hOR : p orTok = true) :
    ∀ bs : List (List (List Char)),
      (∀ b ∈ bs, b ≠ [] ∧ ∀ w ∈ b, p w = false) →
      splitRuns p [] (interBlocksOR bs) = bs := by
  intro bs
  induction bs with
  | nil => intro h; rfl
  | cons b t ih =>
    intro h
    cases t with
    | nil =>
      show splitRuns p [] b = [b]
      rw [splitRuns_no_sep_eq p b [] (h b (by simp)).2]
      simp [(h b (by simp)).1]
    | cons b2 t2 =>
      show splitRuns p [] (b ++ orTok :: interBlocksOR (b2 :: t2)) = _
      rw [splitRuns_append_sep p hOR]
      rw [splitRuns_no_sep_eq p b [] (h b (by simp)).2]
      rw [ih fun x hx => h x (List.mem_cons_of_mem _ hx)]
      simp [(h b (by simp)).1]

theorem preprocess_of_no_bare (s : String)
    (h : (splitRuns isOrOperator [] (tokenize s)).any
      (fun seg => isBareFulltextSegment seg) = false) :
    preprocessSearchQuery s = s := by
  by_cases h0 : (tokenize s).length = 0
  · simp [preprocessSearchQuery, h0]
  · by_cases h1 : (splitRuns isOrOperator [] (tokenize s)).length ≤ 1
    · simp [preprocessSearchQuery, h0, h1]
    · simp [preprocessSearchQuery, h0, h1, h]

theorem orPred_paren_append (w : List Char) :
    isOrOperator (String.mk (w ++ [')'])) = false := by
  rw [isOrOperator]
  apply beq_eq_false_iff_ne.mpr
  intro hcon
  have h2 : (w ++ [')']).map Char.toLower = ['o', 'r'] := congrArg String.toList hcon
  rw [List.map_append] at h2
  simp only [List.map_cons, List.map_nil] at h2
  have h3 := congrArg List.getLast? h2
  rw [List.getLast?_concat] at h3
  simp at h3

theorem isBare_cons (x : String) (rest : List String) :
    isBareFulltextSegment (x :: rest) =
      (isPlainFulltextToken x && isBareFulltextSegment rest) := by
  simp [isBareFulltextSegment]

/-- C10 amended: `preprocessSearchQuery` is idempotent on every query that
contains no double-quote character.  (It is not idempotent in general: see
the counterexample, where an unterminated quote whose scan fails on an
escaped line terminator is re-scanned across the rewritten output's spaces,
merging tokens over an `OR` boundary into a quoted token and leaving a
fresh bare segment for the second pass.) -/
theorem c10_idempotent_on_quote_free (q : String) (hq : '"' ∉ q.toList) :
    preprocessSearchQuery (preprocessSearchQuery q) = preprocessSearchQuery q := by
  by_cases h0 : (tokenize q).length = 0
  · have hpq : preprocessSearchQuery q = q := by simp [preprocessSearchQuery, h0]
    rw [hpq]
    exact hpq
  by_cases h1 : (splitRuns isOrOperator [] (tokenize q)).length ≤ 1
  · have hpq : preprocessSearchQuery q = q := by simp [preprocessSearchQuery, h0, h1]
    rw [hpq]
    exact hpq
  by_cases hbare : (splitRuns isOrOperator [] (tokenize q)).any
      (fun seg => isBareFulltextSegment seg)
  case neg =>
    have hpq : preprocessSearchQuery q = q := by
      simp [preprocessSearchQuery, h0, h1, hbare]
    rw [hpq]
    exact hpq
  case pos =>
  -- the rewrite fires; name the segments and the output
  have htokgood : ∀ s ∈ tokenize q,
      s.toList ≠ [] ∧ (∀ c ∈ s.toList, isJsWhitespace c = false) ∧ '"' ∉ s.toList := by
    intro s hs
    rw [tokenize_no_quote q hq] at hs
    obtain ⟨w, hw, rfl⟩ := List.mem_map.mp hs
    refine ⟨splitRuns_ne_nil _ _ _ w hw,
      splitRuns_no_sep_mem _ _ _ (by simp) w hw, ?_⟩
    intro hc
    rcases splitRuns_mem_src _ _ _ w hw '"' hc with h | h
    · simp at h
    · exact hq h
  have hseggood : ∀ seg ∈ splitRuns isOrOperator [] (tokenize q), seg ≠ [] ∧
      ∀ s ∈ seg, isOrOperator s = false ∧ s.toList ≠ [] ∧
        (∀ c ∈ s.toList, isJsWhitespace c = false) ∧ '"' ∉ s.toList := by
    intro seg hseg
    refine ⟨splitRuns_ne_nil _ _ _ seg hseg, ?_⟩
    intro s hs
    have hsor : isOrOperator s = false :=
      splitRuns_no_sep_mem _ _ _ (by simp) seg hseg s hs
    have hstok : s ∈ tokenize q := by
      rcases splitRuns_mem_src _ _ _ seg hseg s hs with h | h
      · simp at h
      · exact h
    obtain ⟨ha, hb, hc⟩ := htokgood s hstok
    exact ⟨hsor, ha, hb, hc⟩
  have hO : preprocessSearchQuery q =
      joinSep " OR " ((splitRuns isOrOperator [] (tokenize q)).map fun seg =>
        if isBareFulltextSegment seg then wrapFulltextSegment seg
        else joinSep " " seg) := by
    simp [preprocessSearchQuery, h0, h1, hbare]
  rw [hO]
  apply preprocess_of_no_bare
  -- compute the words of the output
  have hWords : wordsJs (joinSep " OR "
        ((splitRuns isOrOperator [] (tokenize q)).map fun seg =>
          if isBareFulltextSegment seg then wrapFulltextSegment seg
          else joinSep " " seg)).toList =
      interBlocksOR ((splitRuns isOrOperator [] (tokenize q)).map segWords) := by
    rw [joinSep_toList, words_joinSepL_or]
    congr 1
    rw [List.map_map, List.map_map]
    apply List.map_congr_left
    intro seg hseg
    simp only [Function.comp_apply]
    exact words_rwSeg seg (hseggood seg hseg).1
      fun s hs => ⟨((hseggood seg hseg).2 s hs).2.1, ((hseggood seg hseg).2 s hs).2.2.1⟩
  have hblocks : ∀ b ∈ (splitRuns isOrOperator [] (tokenize q)).map segWords,
      b ≠ [] ∧ ∀ w ∈ b, isOrOperator (String.mk w) = false := by
    intro b hb
    obtain ⟨seg, hseg, rfl⟩ := List.mem_map.mp hb
    obtain ⟨hsegne, hsegtok⟩ := hseggood seg hseg
    constructor
    · rw [segWords]
      by_cases hbare2 : isBareFulltextSegment seg
      · rw [if_pos hbare2]
        cases seg with
        | nil => exact absurd rfl hsegne
        | cons s rest =>
          cases rest with
          | nil => simp
          | cons s2 rest2 => simp
      · rw [if_neg hbare2]
        simp [hsegne]
    · intro w hw
      rcases mem_segWords seg w hw with h | h | h | h | ⟨s, hs, rfl⟩ | ⟨s, hs, rfl⟩
      · subst h; decide
      · subst h; decide
      · subst h; decide
      · subst h; decide
      · exact (hsegtok s hs).1
      · exact orPred_paren_append s.toList
  have hOq : '"' ∉ (joinSep " OR "
      ((splitRuns isOrOperator [] (tokenize q)).map fun seg =>
        if isBareFulltextSegment seg then wrapFulltextSegment seg
        else joinSep " " seg)).toList := by
    intro hc
    obtain ⟨r, hr, hcr⟩ := splitRuns_covers isJsWhitespace _ [] '"' hc (by decide)
    have hr2 : r ∈ interBlocksOR
        ((splitRuns isOrOperator [] (tokenize q)).map segWords) := by
      rw [← hWords]
      exact hr
    rcases mem_interBlocksOR _ r hr2 with h | ⟨b, hb, hrb⟩
    · subst h
      exact absurd hcr (by decide)
    · obtain ⟨seg, hseg, rfl⟩ := List.mem_map.mp hb
      obtain ⟨hsegne, hsegtok⟩ := hseggood seg hseg
      rcases mem_segWords seg r hrb with h | h | h | h | ⟨s, hs, rfl⟩ | ⟨s, hs, rfl⟩
      · subst h; exact absurd hcr (by decide)
      · subst h; exact absurd hcr (by decide)
      · subst h; exact absurd hcr (by decide)
      · subst h; exact absurd hcr (by decide)
      · exact (hsegtok s hs).2.2.2 hcr
      · rcases List.mem_append.mp hcr with h2 | h2
        · exact (hsegtok s hs).2.2.2 h2
        · simp at h2
  -- pass 2 segments are the mapped word blocks
  have hsegs2 : splitRuns isOrOperator [] (tokenize (joinSep " OR "
      ((splitRuns isOrOperator [] (tokenize q)).map fun seg =>
        if isBareFulltextSegment seg then wrapFulltextSegment seg
        else joinSep " " seg))) =
      ((splitRuns isOrOperator [] (tokenize q)).map segWords).map
        (List.map fun l => String.mk l) := by
    rw [tokenize_no_quote _ hOq, hWords]
    have hm := splitRuns_map isOrOperator (fun l => String.mk l)
      (interBlocksOR ((splitRuns isOrOperator [] (tokenize q)).map segWords)) []
    simp only [List.map_nil] at hm
    rw [hm]
    rw [splitRuns_interBlocks (fun w => isOrOperator (String.mk w)) (by decide)
      _ hblocks]
  rw [hsegs2]
  rw [List.any_eq_false]
  intro seg2 hseg2
  obtain ⟨b, hb, rfl⟩ := List.mem_map.mp hseg2
  obtain ⟨seg, hseg, rfl⟩ := List.mem_map.mp hb
  obtain ⟨hsegne, hsegtok⟩ := hseggood seg hseg
  rw [segWords]
  by_cases hbare2 : isBareFulltextSegment seg
  · rw [if_pos hbare2]
    cases seg with
    | nil => exact absurd rfl hsegne
    | cons s rest =>
      cases rest with
      | nil =>
        show ¬isBareFulltextSegment
          (String.mk ncTok :: (String.mk seTok :: [String.mk s.toList])) = true
        rw [isBare_cons]
        rw [show isPlainFulltextToken (String.mk ncTok) = false from by decide]
        simp
      | cons s2 rest2 =>
        show ¬isBareFulltextSegment (String.mk pncTok :: List.map (fun l => String.mk l)
          (seTok :: s.toList :: andTok ::
            wrapWordsFrom (s2.toList :: rest2.map String.toList))) = true
        rw [isBare_cons]
        rw [show isPlainFulltextToken (String.mk pncTok) = false from by decide]
        simp
  · rw [if_neg hbare2]
    have hident : (seg.map String.toList).map (fun l => String.mk l) =
        seg.map fun s => s := by
      rw [List.map_map]
      rfl
    rw [hident, List.map_id']
    simpa using hbare2

/-- C10 amended witness: the rewritten form of a quote-free query is stable
under a second pass. -/
theorem c10_idempotent_on_quote_free_witness :
    preprocessSearchQuery (preprocessSearchQuery "meeting notes or project") =
      preprocessSearchQuery "meeting notes or project" :=
  c10_idempotent_on_quote_free "meeting notes or project" (by decide)

end TriliumMcp
